/-
Verification of the trend-collection pipeline of `scraper.py`
(module `TrendScraper`): keyword filtering, deduplication with
source-priority tie-breaking, ranking, truncation, category
aggregation, the seasonal fallback, the popularity scorer, and the
orchestrator's fault behaviour.

Modelling conventions:
* Python `dict` (insertion-ordered) becomes an association list
  `List (String × β)` where updating an existing key rewrites the
  value in place and a fresh key is appended at the end.
* Python integers become `Int` (or `Nat` for counts); the float
  average `total / max(1, count)` is modelled exactly over `Rat`.
* `random.randint a b` / jitter values become explicit parameters
  constrained by hypotheses to the interval the library guarantees.
* `sorted(..., key=k, reverse=True)` (a stable descending sort)
  becomes `List.mergeSort` with the reflexive total comparison
  "key of the left argument is lexicographically ≥ key of the right".
-/
import Mathlib

namespace Scraper

/-! ## Definitions (shallow embedding of scraper.py) -/

/-- Python `pat in s` (substring test), start-anchored helper:
does the character list `pat` start the list `s`? -/
def charsStart : List Char → List Char → Bool
  | [], _ => true
  | _ :: _, [] => false
  | a :: as, b :: bs => a = b && charsStart as bs

/-- Does the character list `pat` occur contiguously inside `s`? -/
def charsHave (pat : List Char) : List Char → Bool
  | [] => pat.isEmpty
  | b :: bs => charsStart pat (b :: bs) || charsHave pat bs

/-- Python `pat in s` on strings. -/
def pyIn (pat s : String) : Bool := charsHave pat.data s.data

/-- `any(t in k for t in xs)` from `_categorize` / `_score`. -/
def anyIn (xs : List String) (k : String) : Bool := xs.any (fun t => pyIn t k)

/-- Python `s.lower()`, character-wise (the semantics of `String.toLower`,
written over `data` so the kernel can evaluate it). -/
def pyLower (s : String) : String := ⟨s.data.map Char.toLower⟩

/-- Python `s.strip()`: drop leading and trailing whitespace (the semantics of
`String.trim`, written over `data` so the kernel can evaluate it). -/
def pyStrip (l : List Char) : List Char :=
  ((l.dropWhile Char.isWhitespace).reverse.dropWhile Char.isWhitespace).reverse

/-- Accumulator pass of Python `s.split()`: split on whitespace runs,
discarding empty pieces; `cur` holds the current word reversed. -/
def wordsGo : List Char → List Char → List (List Char)
  | cur, [] => if cur.isEmpty then [] else [cur.reverse]
  | cur, c :: rest =>
    if c.isWhitespace then
      (if cur.isEmpty then wordsGo [] rest else cur.reverse :: wordsGo [] rest)
    else wordsGo (c :: cur) rest

/-- Python `s.split()` (no separator): whitespace-run split, no empties. -/
def pyWords (s : String) : List String := (wordsGo [] s.data).map (fun l => ⟨l⟩)

/-- Number of whitespace-separated words, `len(s.split())`. -/
def wcount (s : String) : Nat := (pyWords s).length

/-- `clamp` from scraper.py: `max(lo, min(hi, v))`. -/
def clamp (v lo hi : Int) : Int := max lo (min hi v)

/-- `TrendScraper._categorize`: first matching keyword family wins. -/
def categorize (keyword : String) : String :=
  let k := pyLower keyword
  if anyIn ["ai", "artificial", "machine learning", "ml", "blockchain", "saas",
      "api", "cloud", "vr", "ar", "3d", "data"] k then "technology"
  else if anyIn ["business", "corporate", "office", "startup", "strategy",
      "marketing", "revenue", "meeting"] k then "business"
  else if anyIn ["medical", "health", "healthcare", "doctor", "nurse", "patient",
      "therapy", "vaccine", "fitness", "wellness"] k then "medical"
  else if anyIn ["education", "school", "student", "teacher", "university",
      "learning", "research"] k then "education"
  else if anyIn ["food", "cuisine", "cooking", "meal", "recipe", "kitchen",
      "coffee", "tea", "restaurant", "diet", "vegan", "plant"] k then "food"
  else if anyIn ["nature", "forest", "mountain", "ocean", "sea", "beach", "sky",
      "wildlife", "green", "sustainable", "climate"] k then "nature"
  else if anyIn ["lifestyle", "family", "people", "beauty", "fashion", "home",
      "interior", "yoga", "meditation"] k then "lifestyle"
  else "general"

/-- The per-source base table of `TrendScraper._score` (`dict.get(source, 70)`). -/
def scoreBase (source : String) : Int :=
  if source = "pexels_api" then 85
  else if source = "unsplash_api" then 84
  else if source = "unsplash_topics" then 78
  else if source = "pytrends" then 88
  else if source = "seasonal" then 72
  else 70

/-- `TrendScraper._score`.  The call `random.randint(-2, 2)` is modelled by the
explicit `jitter` parameter. -/
def score (keyword source : String) (jitter : Int) : Int :=
  let kl := pyLower keyword
  let base := scoreBase source
  let base := base +
    (if anyIn ["ai", "artificial intelligence", "machine learning", "3d"] kl then 8
     else if anyIn ["sustainable", "green", "eco", "renewable"] kl then 6
     else if anyIn ["remote work", "digital transformation", "hybrid"] kl then 6
     else if anyIn ["health", "wellness", "mental health"] kl then 5
     else if anyIn ["diversity", "inclusion"] kl then 4
     else 0)
  let wc := wcount keyword
  let base := base + (if wc = 2 then 3 else if wc = 3 then 2 else 0)
  let base := base +
    (if 40 < keyword.length then (-6 : Int)
     else if 30 < keyword.length then (-3 : Int)
     else 0)
  clamp (base + jitter) 50 99

/-- One candidate record, the dict
`{"keyword": ..., "popularity": ..., "category": ..., "source": ...}`. -/
structure Trend where
  keyword : String
  popularity : Int
  category : String
  source : String
  deriving DecidableEq, Repr

/-- `season_names` from `source_seasonal`. -/
def seasonNames : List String := ["winter", "spring", "summer", "autumn"]

/-- `buckets` from `source_seasonal`. -/
def seasonBuckets : List String :=
  ["business", "lifestyle", "nature", "technology", "food", "education"]

/-- `season_names[((month - 1) // 3) % 4]`.  The index is always < 4, so the
default is never used. -/
def seasonOf (month : Nat) : String := seasonNames.getD (((month - 1) / 3) % 4) ""

/-- `TrendScraper.source_seasonal`.  The i-th call of `random.randint(70, 88)`
is modelled by `roll i`. -/
def sourceSeasonal (month : Nat) (roll : Nat → Int) : List Trend :=
  seasonBuckets.enum.map (fun p =>
    let kw := seasonOf month ++ " " ++ p.2
    { keyword := kw, popularity := roll p.1, category := categorize kw,
      source := "seasonal" })

/-- `d[k] = f(d.get(k))` on an insertion-ordered dict. -/
def assocUpsert {β : Type} (k : String) (f : Option β → β) :
    List (String × β) → List (String × β)
  | [] => [(k, f none)]
  | (k', v) :: rest =>
    if k' = k then (k', f (some v)) :: rest
    else (k', v) :: assocUpsert k f rest

/-- `d.get(k)` (first entry wins, as keys stay unique). -/
def lookupKey {β : Type} (k : String) : List (String × β) → Option β
  | [] => none
  | (k', v) :: rest => if k' = k then some v else lookupKey k rest

/-- The dedup key `t["keyword"].strip().lower()`. -/
def normKey (s : String) : String := pyLower ⟨pyStrip s.data⟩

/-- Does the keyword contain two or more consecutive underscores
(`re.search(r'_{2,}', kw)`)? -/
def hasUU : List Char → Bool
  | a :: b :: rest => (a = '_' && b = '_') || hasUU (b :: rest)
  | _ => false

/-- The filtering pass on the normalized keyword: length in [3, 50], no run of
two or more underscores. -/
def passesNorm (kw : String) : Bool :=
  (3 ≤ kw.length && kw.length ≤ 50) && !hasUU kw.data

/-- `source_priority` table, with `dict.get(source, 0)`. -/
def sourcePriority (s : String) : Nat :=
  if s = "pytrends" then 9
  else if s = "pexels_api" then 8
  else if s = "unsplash_api" then 7
  else if s = "unsplash_topics" then 6
  else if s = "seasonal" then 4
  else 0

/-- The strict "incoming record wins" test of the dedup pass:
higher popularity, or equal popularity and strictly higher source priority. -/
def beats (t cur : Trend) : Bool :=
  decide (cur.popularity < t.popularity) ||
    (decide (t.popularity = cur.popularity) &&
      decide (sourcePriority cur.source < sourcePriority t.source))

/-- One iteration of the dedup loop: skip the record unless its normalized
keyword passes the filter, then update the `unique` dict, keeping the existing
record unless the incoming one `beats` it. -/
def dedupStep (acc : List (String × Trend)) (t : Trend) : List (String × Trend) :=
  let kw := normKey t.keyword
  if passesNorm kw then
    assocUpsert kw (fun o =>
      match o with
      | none => t
      | some c => if beats t c then t else c) acc
  else acc

/-- The full filter + dedup pass over `all_trends`, returning the `unique` dict. -/
def dedupTrends (ts : List Trend) : List (String × Trend) := ts.foldl dedupStep []

/-- The stable descending comparison of the ranking step:
`a` may precede `b` when `(a.popularity, word count)` is lexicographically ≥
`(b.popularity, word count)` — i.e. Python
`sorted(key=lambda x: (pop, len(kw.split())), reverse=True)`. -/
def rankLE (a b : Trend) : Bool :=
  decide (b.popularity < a.popularity) ||
    (decide (b.popularity = a.popularity) &&
      decide (wcount b.keyword ≤ wcount a.keyword))

/-- Filter + dedup + stable descending sort + truncation to the top 20:
the part of `collect` that produces `trending_searches` from `all_trends`. -/
def rankPass (ts : List Trend) : List Trend :=
  (((dedupTrends ts).map (fun p => p.2)).mergeSort rankLE).take 20

/-- Python `str.title()` (ASCII behaviour): uppercase a letter that follows a
non-letter, lowercase a letter that follows a letter. -/
def titleChars : Bool → List Char → List Char
  | _, [] => []
  | prevAlpha, c :: rest =>
    (if prevAlpha then c.toLower else c.toUpper) :: titleChars c.isAlpha rest

def titleCase (s : String) : String := ⟨titleChars false s.data⟩

/-- The per-category accumulator dict of the aggregation loop (before the
final pass that computes the average and trims `top_keywords`). -/
structure CatAcc where
  name : String
  count : Nat
  total : Int
  tops : List (String × Int)
  deriving DecidableEq, Repr

/-- The `setdefault` initial value for category `cat`. -/
def catInit (cat : String) : CatAcc :=
  { name := titleCase cat, count := 0, total := 0, tops := [] }

/-- The mutation applied to a category's accumulator for one top record. -/
def catUpdate (tr : Trend) (c : CatAcc) : CatAcc :=
  { c with
    count := c.count + 1
    total := c.total + tr.popularity
    tops := c.tops ++ [(tr.keyword, tr.popularity)] }

/-- The grouping loop over the top-20 records. -/
def catGroups (top : List Trend) : List (String × CatAcc) :=
  top.foldl (fun acc tr =>
    assocUpsert tr.category (fun o => catUpdate tr ((o.getD (catInit tr.category)))) acc) []

/-- One summary of `popular_categories`. -/
structure CategorySummary where
  name : String
  count : Nat
  avg_popularity : Rat
  top_keywords : List (String × Int)
  deriving DecidableEq, Repr

/-- Stable descending comparison on the `popularity` of a
`{keyword, popularity}` pair. -/
def popLE (a b : String × Int) : Bool := decide (b.2 ≤ a.2)

/-- The finalization pass: `avg_popularity = total / max(1, count)` (modelled
exactly over `Rat`) and `top_keywords` sorted descending by popularity,
truncated to 5. -/
def finalizeCat (c : CatAcc) : CategorySummary :=
  { name := c.name, count := c.count,
    avg_popularity := (c.total : Rat) / ((max 1 c.count : Nat) : Rat),
    top_keywords := (c.tops.mergeSort popLE).take 5 }

/-- Stable descending comparison on `avg_popularity`. -/
def avgLE (a b : CategorySummary) : Bool :=
  decide (b.avg_popularity ≤ a.avg_popularity)

/-- `popular_categories`: the finalized summaries sorted descending by
average popularity. -/
def popularCategories (top : List Trend) : List CategorySummary :=
  ((catGroups top).map (fun p => finalizeCat p.2)).mergeSort avgLE

/-- What one source future delivered: a result list, a raised exception
(caught by the `except Exception` arm), or a per-task timeout (caught by the
`except TimeoutError` arm). -/
inductive Outcome where
  | ok (ts : List Trend)
  | failed
  | timedOut
  deriving DecidableEq, Repr

/-- The sources whose future completed with a non-empty result: only these
extend `all_trends` and are recorded in `used_sources` (`if res:`). -/
def okResults (outcomes : List (String × Outcome)) : List (String × List Trend) :=
  outcomes.filterMap (fun p =>
    match p.2 with
    | Outcome.ok ts => if ts.isEmpty then none else some (p.1, ts)
    | _ => none)

/-- The result dict of `collect`.  The wall-clock fields `scrape_date` and
`scraping_duration` are real-time data with no bearing on any claim and are
not modelled. -/
structure CollectionResult where
  sources_used : List String
  total_keywords_found : Nat
  trending_searches : List Trend
  popular_categories : List CategorySummary
  seasonal_trends : List Trend
  deriving Repr

/-- The `all_trends` list right before the dedup pass: every non-empty
adapter result in completion order, then the seasonal baseline. -/
def allTrendsOf (outcomes : List (String × Outcome)) (month : Nat) (roll : Nat → Int) :
    List Trend :=
  ((okResults outcomes).map (fun p => p.2)).flatten ++ sourceSeasonal month roll

/-- `TrendScraper.collect` after the concurrent loop has delivered
`outcomes` (in completion order): append the seasonal baseline, record
`"seasonal"`, filter + dedup + rank + truncate, aggregate categories, and
extract the seasonal survivors. -/
def collect (outcomes : List (String × Outcome)) (month : Nat) (roll : Nat → Int) :
    CollectionResult :=
  let allTrends := allTrendsOf outcomes month roll
  let used0 := (okResults outcomes).map (fun p => p.1)
  let used := if "seasonal" ∈ used0 then used0 else used0 ++ ["seasonal"]
  let top := rankPass allTrends
  { sources_used := used
    total_keywords_found := allTrends.length
    trending_searches := top
    popular_categories := popularCategories top
    seasonal_trends := top.filter (fun t => t.source = "seasonal") }

/-- The stream of events the loop
`for fut in as_completed(futs, timeout=180)` can observe: a completed future
(whose body is guarded by `try/except`), or the expiry of the global
180-second timeout, which makes `as_completed` raise `TimeoutError` — outside
any `try` block. -/
inductive LoopEvent where
  | completed (name : String) (o : Outcome)
  | globalTimeout
  deriving DecidableEq, Repr

/-- Run the collection loop over its event stream.  A `globalTimeout` event is
an uncaught `TimeoutError`: the whole call aborts. -/
def runEvents : List LoopEvent → Except String (List (String × Outcome))
  | [] => Except.ok []
  | LoopEvent.globalTimeout :: _ => Except.error "TimeoutError"
  | LoopEvent.completed n o :: rest => (runEvents rest).map (fun l => (n, o) :: l)

/-- `collect` including the fault behaviour of the concurrent loop. -/
def collectE (events : List LoopEvent) (month : Nat) (roll : Nat → Int) :
    Except String CollectionResult :=
  (runEvents events).map (fun outcomes => collect outcomes month roll)

/-- The outcomes of the completed futures of an event stream. -/
def completedOutcomes (events : List LoopEvent) : List (String × Outcome) :=
  events.filterMap (fun e =>
    match e with
    | LoopEvent.completed n o => some (n, o)
    | LoopEvent.globalTimeout => none)

/-- One comparison step of the "best record per keyword" fold. -/
def bestStep (o : Option Trend) (t : Trend) : Option Trend :=
  some (match o with
    | none => t
    | some c => if beats t c then t else c)

/-- A synthetic high-popularity adapter record for the crowd-out example. -/
def exRecord (i : Nat) (p : Int) : Trend :=
  ⟨"kw" ++ toString i, p, "general", "pexels_api"⟩

/-- Twenty distinct high-popularity records: enough to fill the top 20. -/
def exTop : List Trend :=
  [exRecord 1 99, exRecord 2 98, exRecord 3 97, exRecord 4 96, exRecord 5 95,
   exRecord 6 94, exRecord 7 93, exRecord 8 92, exRecord 9 91, exRecord 10 90,
   exRecord 11 89, exRecord 12 88, exRecord 13 87, exRecord 14 86,
   exRecord 15 85, exRecord 16 84, exRecord 17 83, exRecord 18 82,
   exRecord 19 81, exRecord 20 80]

/-- One adapter delivering the twenty crowd-out records. -/
def exOutcomes : List (String × Outcome) := [("pexels_api", Outcome.ok exTop)]

/-- First-occurrence deduplication of a key list: the key order of a Python
dict built by repeated `setdefault`. -/
def dedupFirst : List String → List String
  | [] => []
  | x :: xs => x :: (dedupFirst xs).filter (fun y => y ≠ x)

/-- Spec-side accumulator for category `c`: the grouped records of `c`
expressed directly by `filter` (to be proved equal to the fold's dict). -/
def specAcc (top : List Trend) (c : String) : CatAcc :=
  { name := titleCase c
    count := (top.filter (fun t => t.category = c)).length
    total := ((top.filter (fun t => t.category = c)).map
      (fun t => t.popularity)).sum
    tops := (top.filter (fun t => t.category = c)).map
      (fun t => (t.keyword, t.popularity)) }

/-- Spec-side category summary, with `avg_popularity` the arithmetic mean. -/
def specSummary (top : List Trend) (c : String) : CategorySummary :=
  { name := titleCase c
    count := (top.filter (fun t => t.category = c)).length
    avg_popularity := ((((top.filter (fun t => t.category = c)).map
        (fun t => t.popularity)).sum : Int) : Rat) /
      (((top.filter (fun t => t.category = c)).length : Nat) : Rat)
    top_keywords := (((top.filter (fun t => t.category = c)).map
        (fun t => (t.keyword, t.popularity))).mergeSort popLE).take 5 }

/-- Two member sublists are separated when records sharing a normalized
keyword never tie on both popularity and source priority. -/
def Sep (s1 s2 : List Trend) : Prop :=
  ∀ t1 ∈ s1, ∀ t2 ∈ s2, normKey t1.keyword = normKey t2.keyword →
    t1.popularity ≠ t2.popularity ∨
      sourcePriority t1.source ≠ sourcePriority t2.source

instance (s1 s2 : List Trend) : Decidable (Sep s1 s2) :=
  inferInstanceAs (Decidable (∀ t1 ∈ s1, ∀ t2 ∈ s2,
    normKey t1.keyword = normKey t2.keyword →
    t1.popularity ≠ t2.popularity ∨
      sourcePriority t1.source ≠ sourcePriority t2.source))

/-- Left-biased "better record" merge of two optional fold results. -/
def optBest (o1 o2 : Option Trend) : Option Trend :=
  match o2 with
  | none => o1
  | some b => bestStep o1 b

/-- The best record one member sublist offers for key `k`. -/
def mBest (k : String) (s : List Trend) : Option Trend :=
  (s.filter (fun t =>
    passesNorm (normKey t.keyword) && (normKey t.keyword == k))).foldl
    bestStep none

/-- Fold of the per-member best records, in member order. -/
def memberFold (k : String) (L : List (List Trend)) : Option Trend :=
  L.foldl (fun o s => optBest o (mBest k s)) none

/-- Records used by the commutativity counterexample: equal popularity and
word count, different keywords. -/
def exA : Trend := ⟨"alpha one", 80, "general", "pexels_api"⟩

def exB : Trend := ⟨"beta two", 80, "general", "pytrends"⟩

/-! ## Theorems -/

theorem clamp_mem (v lo hi : Int) (h : lo ≤ hi) :
    lo ≤ clamp v lo hi ∧ clamp v lo hi ≤ hi := by
  unfold clamp
  omega

/-- C8: for every keyword, source and jitter in [-2, 2], `_score` returns an
integer in [50, 99] inclusive. -/
theorem score_bounds (keyword source : String) (jitter : Int)
    (h1 : -2 ≤ jitter) (h2 : jitter ≤ 2) :
    50 ≤ score keyword source jitter ∧ score keyword source jitter ≤ 99 := by
  simp only [score]
  exact clamp_mem _ 50 99 (by omega)

theorem score_bounds_witness :
    50 ≤ score "remote work" "pytrends" 2 ∧ score "remote work" "pytrends" 2 ≤ 99 :=
  score_bounds "remote work" "pytrends" 2 (by decide) (by decide)

/-- C6: `source_seasonal` returns exactly 6 records, one per fixed bucket, with
keyword `"{season} {bucket}"`, source `"seasonal"` and popularity in [70, 88];
the season is winter for months 1-3, spring for 4-6, summer for 7-9 and autumn
for 10-12. -/
theorem sourceSeasonal_spec (month : Nat) (roll : Nat → Int)
    (hm1 : 1 ≤ month) (hm2 : month ≤ 12)
    (hr : ∀ i, 70 ≤ roll i ∧ roll i ≤ 88) :
    (sourceSeasonal month roll).length = 6 ∧
    (sourceSeasonal month roll).map (fun t => t.keyword)
      = seasonBuckets.map (fun b => seasonOf month ++ " " ++ b) ∧
    (∀ t ∈ sourceSeasonal month roll,
      t.source = "seasonal" ∧ 70 ≤ t.popularity ∧ t.popularity ≤ 88) ∧
    (month ≤ 3 → seasonOf month = "winter") ∧
    (4 ≤ month → month ≤ 6 → seasonOf month = "spring") ∧
    (7 ≤ month → month ≤ 9 → seasonOf month = "summer") ∧
    (10 ≤ month → seasonOf month = "autumn") := by
  refine ⟨rfl, rfl, ?_, ?_, ?_, ?_, ?_⟩
  · intro t ht
    simp only [sourceSeasonal, seasonBuckets, List.enum, List.enumFrom,
      List.map, List.mem_cons, List.not_mem_nil, or_false] at ht
    rcases ht with rfl | rfl | rfl | rfl | rfl | rfl <;>
      exact ⟨rfl, (hr _).1, (hr _).2⟩
  · intro h; interval_cases month <;> rfl
  · intro h h'; interval_cases month <;> rfl
  · intro h h'; interval_cases month <;> rfl
  · intro h; interval_cases month <;> rfl

theorem sourceSeasonal_spec_witness :
    (sourceSeasonal 5 (fun _ => 77)).length = 6 ∧
    (sourceSeasonal 5 (fun _ => 77)).map (fun t => t.keyword)
      = seasonBuckets.map (fun b => seasonOf 5 ++ " " ++ b) ∧
    (∀ t ∈ sourceSeasonal 5 (fun _ => 77),
      t.source = "seasonal" ∧ 70 ≤ t.popularity ∧ t.popularity ≤ 88) ∧
    ((5 : Nat) ≤ 3 → seasonOf 5 = "winter") ∧
    (4 ≤ (5 : Nat) → (5 : Nat) ≤ 6 → seasonOf 5 = "spring") ∧
    (7 ≤ (5 : Nat) → (5 : Nat) ≤ 9 → seasonOf 5 = "summer") ∧
    (10 ≤ (5 : Nat) → seasonOf 5 = "autumn") :=
  sourceSeasonal_spec 5 (fun _ => 77) (by decide) (by decide)
    (fun _ => ⟨by norm_num, by norm_num⟩)

theorem assocUpsert_ne_nil {β : Type} (k : String) (f : Option β → β)
    (l : List (String × β)) : assocUpsert k f l ≠ [] := by
  cases l with
  | nil => simp [assocUpsert]
  | cons p rest =>
    obtain ⟨k', v⟩ := p
    simp only [assocUpsert]
    split <;> simp

theorem keys_assocUpsert {β : Type} (k : String) (f : Option β → β)
    (l : List (String × β)) :
    (assocUpsert k f l).map Prod.fst =
      if k ∈ l.map Prod.fst then l.map Prod.fst else l.map Prod.fst ++ [k] := by
  induction l with
  | nil => simp [assocUpsert]
  | cons p rest ih =>
    obtain ⟨k', v⟩ := p
    by_cases hk : k' = k
    · subst hk
      simp [assocUpsert]
    · simp only [assocUpsert, if_neg hk, List.map, List.mem_cons, ih]
      have hne : ¬ k = k' := fun h => hk h.symm
      by_cases hmem : k ∈ rest.map Prod.fst <;>
        simp [hmem, hne]

theorem lookupKey_assocUpsert_self {β : Type} (k : String) (f : Option β → β)
    (l : List (String × β)) :
    lookupKey k (assocUpsert k f l) = some (f (lookupKey k l)) := by
  induction l with
  | nil => simp [assocUpsert, lookupKey]
  | cons p rest ih =>
    obtain ⟨k', v⟩ := p
    by_cases hk : k' = k
    · subst hk
      simp [assocUpsert, lookupKey]
    · simp [assocUpsert, lookupKey, hk, ih]

theorem lookupKey_assocUpsert_ne {β : Type} {k' k : String} (h : k' ≠ k)
    (f : Option β → β) (l : List (String × β)) :
    lookupKey k' (assocUpsert k f l) = lookupKey k' l := by
  have hk' : ¬ k = k' := fun hh => h hh.symm
  induction l with
  | nil => simp [assocUpsert, lookupKey, hk']
  | cons p rest ih =>
    obtain ⟨k'', v⟩ := p
    by_cases hk : k'' = k
    · subst hk
      simp [assocUpsert, lookupKey, hk']
    · simp [assocUpsert, lookupKey, hk, ih]

theorem mem_assocUpsert {β : Type} {q : String × β} {k : String}
    {f : Option β → β} {l : List (String × β)} (h : q ∈ assocUpsert k f l) :
    q ∈ l ∨ q = (k, f none) ∨ ∃ v, (k, v) ∈ l ∧ q = (k, f (some v)) := by
  induction l with
  | nil =>
    simp only [assocUpsert, List.mem_cons, List.not_mem_nil, or_false] at h
    exact Or.inr (Or.inl h)
  | cons p rest ih =>
    obtain ⟨k', v⟩ := p
    by_cases hk : k' = k
    · subst hk
      simp only [assocUpsert, eq_self_iff_true, if_true, List.mem_cons] at h
      rcases h with h | h
      · exact Or.inr (Or.inr ⟨v, by simp, h⟩)
      · exact Or.inl (List.mem_cons_of_mem _ h)
    · simp only [assocUpsert, if_neg hk, List.mem_cons] at h
      rcases h with h | h
      · exact Or.inl (h ▸ List.mem_cons_self _ _)
      · rcases ih h with h' | h' | ⟨w, hw, hq⟩
        · exact Or.inl (List.mem_cons_of_mem _ h')
        · exact Or.inr (Or.inl h')
        · exact Or.inr (Or.inr ⟨w, List.mem_cons_of_mem _ hw, hq⟩)

theorem nodup_keys_assocUpsert {β : Type} {k : String} {f : Option β → β}
    {l : List (String × β)} (h : (l.map Prod.fst).Nodup) :
    ((assocUpsert k f l).map Prod.fst).Nodup := by
  rw [keys_assocUpsert]
  by_cases hmem : k ∈ l.map Prod.fst
  · simpa [hmem] using h
  · simp [hmem, List.nodup_append, h]

theorem lookupKey_eq_some_of_mem {β : Type} {l : List (String × β)} {k : String}
    {v : β} (hnd : (l.map Prod.fst).Nodup) (h : (k, v) ∈ l) :
    lookupKey k l = some v := by
  induction l with
  | nil => simp at h
  | cons p rest ih =>
    obtain ⟨k', w⟩ := p
    simp only [List.map, List.nodup_cons] at hnd
    rcases List.mem_cons.mp h with h | h
    · injection h with h1 h2
      subst h1
      subst h2
      simp [lookupKey]
    · have hk : k' ≠ k := by
        intro hkk
        subst hkk
        exact hnd.1 (List.mem_map.mpr ⟨(k', v), h, rfl⟩)
      simp [lookupKey, hk, ih hnd.2 h]

theorem mem_of_lookupKey_eq_some {β : Type} {l : List (String × β)} {k : String}
    {v : β} (h : lookupKey k l = some v) : (k, v) ∈ l := by
  induction l with
  | nil => simp [lookupKey] at h
  | cons p rest ih =>
    obtain ⟨k', w⟩ := p
    by_cases hk : k' = k
    · subst hk
      simp only [lookupKey, eq_self_iff_true, if_true, Option.some.injEq] at h
      exact h ▸ List.mem_cons_self _ _
    · simp only [lookupKey, if_neg hk] at h
      exact List.mem_cons_of_mem _ (ih h)

theorem dedup_go_mem (ts : List Trend) :
    ∀ (acc : List (String × Trend)) (q : String × Trend),
    q ∈ ts.foldl dedupStep acc →
    q ∈ acc ∨ (q.2 ∈ ts ∧ passesNorm (normKey q.2.keyword) = true ∧
      q.1 = normKey q.2.keyword) := by
  induction ts with
  | nil => exact fun acc q h => Or.inl h
  | cons t ts ih =>
    intro acc q h
    simp only [List.foldl_cons] at h
    rcases ih _ _ h with h' | h'
    · simp only [dedupStep] at h'
      by_cases hp : passesNorm (normKey t.keyword)
      · rw [if_pos hp] at h'
        rcases mem_assocUpsert h' with h2 | h2 | ⟨v, hv, h2⟩
        · exact Or.inl h2
        · right
          rw [h2]
          exact ⟨List.mem_cons_self _ _, hp, rfl⟩
        · by_cases hb : beats t v
          · right
            rw [h2]
            simp only [hb, if_true]
            exact ⟨List.mem_cons_self _ _, hp, trivial⟩
          · left
            rw [h2]
            simpa [hb] using hv
      · rw [if_neg hp] at h'
        exact Or.inl h'
    · exact Or.inr ⟨List.mem_cons_of_mem _ h'.1, h'.2⟩

/-- Provenance of the dedup pass: every surviving entry is one of the input
records, it passed the filter, and it is stored under its normalized keyword. -/
theorem dedup_mem {ts : List Trend} {q : String × Trend} (h : q ∈ dedupTrends ts) :
    q.2 ∈ ts ∧ passesNorm (normKey q.2.keyword) = true ∧
      q.1 = normKey q.2.keyword := by
  rcases dedup_go_mem ts [] q h with h' | h'
  · simp at h'
  · exact h'

theorem dedup_go_keys_mono (ts : List Trend) :
    ∀ (acc : List (String × Trend)) (k : String), k ∈ acc.map Prod.fst →
      k ∈ (ts.foldl dedupStep acc).map Prod.fst := by
  induction ts with
  | nil => exact fun acc k h => h
  | cons t ts ih =>
    intro acc k h
    simp only [List.foldl_cons]
    apply ih
    simp only [dedupStep]
    by_cases hp : passesNorm (normKey t.keyword)
    · rw [if_pos hp, keys_assocUpsert]
      split <;> simp [h]
    · rwa [if_neg hp]

theorem dedup_go_key_of_mem (ts : List Trend) :
    ∀ (acc : List (String × Trend)) (t : Trend), t ∈ ts →
      passesNorm (normKey t.keyword) = true →
      normKey t.keyword ∈ (ts.foldl dedupStep acc).map Prod.fst := by
  induction ts with
  | nil => intro acc t h; simp at h
  | cons t' ts ih =>
    intro acc t h hp
    rcases List.mem_cons.mp h with rfl | h
    · simp only [List.foldl_cons]
      apply dedup_go_keys_mono
      simp only [dedupStep, if_pos hp, keys_assocUpsert]
      split <;> simp_all
    · exact ih _ t h hp

theorem dedup_keys_nodup (ts : List Trend) :
    ((dedupTrends ts).map Prod.fst).Nodup := by
  have go : ∀ (acc : List (String × Trend)), (acc.map Prod.fst).Nodup →
      ((ts.foldl dedupStep acc).map Prod.fst).Nodup := by
    induction ts with
    | nil => exact fun acc h => h
    | cons t ts ih =>
      intro acc h
      simp only [List.foldl_cons]
      apply ih
      simp only [dedupStep]
      by_cases hp : passesNorm (normKey t.keyword)
      · rw [if_pos hp]
        exact nodup_keys_assocUpsert h
      · rwa [if_neg hp]
  exact go [] (by simp)

theorem dedup_ne_nil {ts : List Trend} {t : Trend} (hmem : t ∈ ts)
    (hp : passesNorm (normKey t.keyword) = true) : dedupTrends ts ≠ [] := by
  intro hnil
  have h := dedup_go_key_of_mem ts [] t hmem hp
  simp only [dedupTrends] at hnil
  rw [hnil] at h
  simp at h

theorem dedup_go_lookup (ts : List Trend) :
    ∀ (acc : List (String × Trend)) (k : String),
    lookupKey k (ts.foldl dedupStep acc) =
      (ts.filter (fun t =>
        passesNorm (normKey t.keyword) && (normKey t.keyword == k))).foldl
        bestStep (lookupKey k acc) := by
  induction ts with
  | nil => simp
  | cons t ts ih =>
    intro acc k
    simp only [List.foldl_cons, List.filter_cons]
    by_cases hp : passesNorm (normKey t.keyword)
    · by_cases hk : normKey t.keyword = k
      · have hcond : (passesNorm (normKey t.keyword) &&
            (normKey t.keyword == k)) = true := by
          rw [Bool.and_eq_true]
          exact ⟨hp, by simp [hk]⟩
        rw [if_pos hcond, List.foldl_cons, ih]
        congr 1
        rw [hk] at hp
        simp only [dedupStep, hk, if_pos hp]
        rw [lookupKey_assocUpsert_self]
        cases lookupKey k acc <;> rfl
      · have hcond : (passesNorm (normKey t.keyword) &&
            (normKey t.keyword == k)) = false := by simp [hk]
        rw [if_neg (by simp [hcond]), ih]
        congr 1
        simp only [dedupStep, if_pos hp]
        exact lookupKey_assocUpsert_ne (fun h => hk h.symm) _ _
    · have hcond : (passesNorm (normKey t.keyword) &&
          (normKey t.keyword == k)) = false := by simp [hp]
      rw [if_neg (by simp [hcond]), ih]
      congr 1
      simp only [dedupStep, if_neg hp]

/-- The record the dedup pass keeps for key `k` is the left fold of the
strict-improvement comparison over the input records with that key. -/
theorem dedup_lookup (ts : List Trend) (k : String) :
    lookupKey k (dedupTrends ts) =
      (ts.filter (fun t =>
        passesNorm (normKey t.keyword) && (normKey t.keyword == k))).foldl
        bestStep none := by
  have h := dedup_go_lookup ts [] k
  simpa [lookupKey] using h

theorem rankLE_trans (a b c : Trend) (h1 : rankLE a b) (h2 : rankLE b c) :
    rankLE a c := by
  simp only [rankLE, Bool.or_eq_true, Bool.and_eq_true, decide_eq_true_eq] at h1 h2 ⊢
  omega

theorem rankLE_total (a b : Trend) : rankLE a b || rankLE b a := by
  simp only [rankLE, Bool.or_eq_true, Bool.and_eq_true, decide_eq_true_eq]
  omega

/-- Stability of the ranking sort: the subsequence of records carrying one
fixed rank key `(popularity, word count)` is unchanged by the sort. -/
theorem mergeSort_filter_rank (l : List Trend) (P : Int × Nat) :
    (l.mergeSort rankLE).filter
        (fun t => decide ((t.popularity, wcount t.keyword) = P)) =
      l.filter (fun t => decide ((t.popularity, wcount t.keyword) = P)) := by
  have hpair : (l.filter
      (fun t => decide ((t.popularity, wcount t.keyword) = P))).Pairwise
      (fun a b => rankLE a b) := by
    apply List.pairwise_of_forall_mem_list
    intro a ha b hb
    have ha' := (List.mem_filter.mp ha).2
    have hb' := (List.mem_filter.mp hb).2
    simp only [decide_eq_true_eq] at ha' hb'
    subst ha'
    injection hb' with e1 e2
    simp only [rankLE, Bool.or_eq_true, Bool.and_eq_true, decide_eq_true_eq]
    omega
  have hsub : List.Sublist
      (l.filter (fun t => decide ((t.popularity, wcount t.keyword) = P)))
      (l.mergeSort rankLE) :=
    List.sublist_mergeSort rankLE_trans rankLE_total hpair (List.filter_sublist l)
  have heq : (l.filter
        (fun t => decide ((t.popularity, wcount t.keyword) = P))).filter
        (fun t => decide ((t.popularity, wcount t.keyword) = P)) =
      l.filter (fun t => decide ((t.popularity, wcount t.keyword) = P)) := by
    apply List.filter_eq_self.mpr
    intro a ha
    exact (List.mem_filter.mp ha).2
  have hsub2 : List.Sublist
      (l.filter (fun t => decide ((t.popularity, wcount t.keyword) = P)))
      ((l.mergeSort rankLE).filter
        (fun t => decide ((t.popularity, wcount t.keyword) = P))) :=
    heq ▸ hsub.filter _
  have hlen : ((l.mergeSort rankLE).filter
        (fun t => decide ((t.popularity, wcount t.keyword) = P))).length =
      (l.filter (fun t => decide ((t.popularity, wcount t.keyword) = P))).length := by
    have h1 := (List.mergeSort_perm l rankLE).countP_eq
      (fun t => decide ((t.popularity, wcount t.keyword) = P))
    rwa [List.countP_eq_length_filter, List.countP_eq_length_filter] at h1
  exact (hsub2.eq_of_length hlen.symm).symm

/-- The season name is always one of the four table entries. -/
theorem seasonOf_cases (month : Nat) :
    seasonOf month = "winter" ∨ seasonOf month = "spring" ∨
    seasonOf month = "summer" ∨ seasonOf month = "autumn" := by
  unfold seasonOf seasonNames
  set i := ((month - 1) / 3) % 4 with hi
  have h4 : i < 4 := Nat.mod_lt _ (by norm_num)
  interval_cases i <;> simp

theorem hasUU_cons (b : Char) {s : List Char} (h : hasUU s = true) :
    hasUU (b :: s) = true := by
  cases s with
  | nil => simp [hasUU] at h
  | cons c s' =>
    simp only [hasUU, Bool.or_eq_true] at h ⊢
    exact Or.inr h

theorem hasUU_of_start (pat : List Char) :
    ∀ s, charsStart pat s = true → hasUU pat = true → hasUU s = true := by
  induction pat with
  | nil => intro s h1 h2; simp [hasUU] at h2
  | cons a pat ih =>
    intro s h1 h2
    cases s with
    | nil => simp [charsStart] at h1
    | cons b s' =>
      simp only [charsStart, Bool.and_eq_true, decide_eq_true_eq] at h1
      obtain ⟨hab, hst⟩ := h1
      subst hab
      cases pat with
      | nil => simp [hasUU] at h2
      | cons a2 pat2 =>
        simp only [hasUU, Bool.or_eq_true, Bool.and_eq_true,
          decide_eq_true_eq] at h2
        rcases h2 with ⟨ha, ha2⟩ | h2
        · cases s' with
          | nil => simp [charsStart] at hst
          | cons c s'' =>
            simp only [charsStart, Bool.and_eq_true, decide_eq_true_eq] at hst
            obtain ⟨hac, _⟩ := hst
            subst hac
            simp [hasUU, ha, ha2]
        · exact hasUU_cons _ (ih s' hst h2)

theorem hasUU_of_have (pat : List Char) (hpat : hasUU pat = true) :
    ∀ s, charsHave pat s = true → hasUU s = true := by
  intro s
  induction s with
  | nil =>
    intro h
    simp only [charsHave, List.isEmpty_iff] at h
    rw [h] at hpat
    simp [hasUU] at hpat
  | cons c s' ih =>
    intro h
    simp only [charsHave, Bool.or_eq_true] at h
    rcases h with h | h
    · exact hasUU_of_start pat _ h hpat
    · exact hasUU_cons _ (ih h)

/-- Well-formedness of every `collect` result: non-empty trending list and
`"seasonal"` recorded (shared helper). -/
theorem collect_wf (outcomes : List (String × Outcome)) (month : Nat)
    (roll : Nat → Int) :
    1 ≤ (collect outcomes month roll).trending_searches.length ∧
    "seasonal" ∈ (collect outcomes month roll).sources_used := by
  constructor
  · show 1 ≤ (rankPass (allTrendsOf outcomes month roll)).length
    have hmem0 : (⟨seasonOf month ++ " " ++ "business", roll 0,
        categorize (seasonOf month ++ " " ++ "business"), "seasonal"⟩ : Trend)
        ∈ sourceSeasonal month roll := List.mem_cons_self _ _
    have hmem : (⟨seasonOf month ++ " " ++ "business", roll 0,
        categorize (seasonOf month ++ " " ++ "business"), "seasonal"⟩ : Trend)
        ∈ allTrendsOf outcomes month roll := by
      simp only [allTrendsOf]
      exact List.mem_append_right _ hmem0
    have hp : passesNorm (normKey (seasonOf month ++ " " ++ "business")) = true := by
      rcases seasonOf_cases month with h | h | h | h <;> rw [h] <;> decide
    have hne := dedup_ne_nil hmem hp
    have hpos : 0 < (dedupTrends (allTrendsOf outcomes month roll)).length :=
      List.length_pos.mpr hne
    simp only [rankPass, List.length_take, List.length_mergeSort, List.length_map]
    omega
  · show "seasonal" ∈
      (if "seasonal" ∈ (okResults outcomes).map (fun p => p.1)
       then (okResults outcomes).map (fun p => p.1)
       else (okResults outcomes).map (fun p => p.1) ++ ["seasonal"])
    by_cases h : "seasonal" ∈ (okResults outcomes).map (fun p => p.1)
    · simpa [h] using h
    · simp [h]

/-- C1: for every execution of `collect`, even when every network adapter
fails or returns an empty list, `trending_searches` has length ≥ 1 and
`sources_used` contains `"seasonal"`. -/
theorem collect_never_empty (outcomes : List (String × Outcome)) (month : Nat)
    (roll : Nat → Int) :
    1 ≤ (collect outcomes month roll).trending_searches.length ∧
    "seasonal" ∈ (collect outcomes month roll).sources_used :=
  collect_wf outcomes month roll

/-- C2 counterexample: when the global 180-second timeout of
`as_completed(futs, timeout=180)` expires, the `TimeoutError` is raised by the
`for` statement itself — outside the per-future `try/except` — so `collect`
propagates it instead of returning a result. -/
theorem collect_global_timeout_raises :
    collectE [LoopEvent.globalTimeout] 1 (fun _ => 70) =
      Except.error "TimeoutError" := rfl

theorem runEvents_no_timeout (events : List LoopEvent)
    (h : LoopEvent.globalTimeout ∉ events) :
    runEvents events = Except.ok (completedOutcomes events) := by
  induction events with
  | nil => rfl
  | cons e rest ih =>
    cases e with
    | globalTimeout => exact absurd (List.mem_cons_self _ _) h
    | completed n o =>
      have h' : LoopEvent.globalTimeout ∉ rest :=
        fun hm => h (List.mem_cons_of_mem _ hm)
      simp [runEvents, completedOutcomes, ih h', Except.map]

/-- C2 amended: adapter exceptions and per-task timeouts are swallowed — for
every event stream without a global-timeout expiry, `collect` returns a
well-formed `CollectionResult` (non-empty `trending_searches`, `"seasonal"`
recorded); but the expiry of the global 180-second `as_completed` timeout
raises a `TimeoutError` out of `collect`. -/
theorem collect_ok_without_global_timeout (events : List LoopEvent)
    (month : Nat) (roll : Nat → Int)
    (h : LoopEvent.globalTimeout ∉ events) :
    collectE events month roll =
      Except.ok (collect (completedOutcomes events) month roll) ∧
    1 ≤ (collect (completedOutcomes events) month roll).trending_searches.length ∧
    "seasonal" ∈ (collect (completedOutcomes events) month roll).sources_used := by
  refine ⟨?_, collect_wf _ _ _⟩
  simp [collectE, runEvents_no_timeout events h, Except.map]

theorem collect_ok_without_global_timeout_witness :
    collectE [LoopEvent.completed "pexels_api" Outcome.failed] 2 (fun _ => 70) =
      Except.ok (collect
        (completedOutcomes [LoopEvent.completed "pexels_api" Outcome.failed])
        2 (fun _ => 70)) ∧
    1 ≤ (collect
        (completedOutcomes [LoopEvent.completed "pexels_api" Outcome.failed])
        2 (fun _ => 70)).trending_searches.length ∧
    "seasonal" ∈ (collect
        (completedOutcomes [LoopEvent.completed "pexels_api" Outcome.failed])
        2 (fun _ => 70)).sources_used :=
  collect_ok_without_global_timeout
    [LoopEvent.completed "pexels_api" Outcome.failed] 2 (fun _ => 70)
    (by decide)

/-- C3: for two records with equal normalized keywords (both passing the
filter), exactly one survives dedup: the one with strictly higher popularity,
or on a popularity tie the one with strictly higher source priority, the
earlier record on a full tie; the priority table is
pytrends > pexels_api > unsplash_api > unsplash_topics > seasonal. -/
theorem dedup_keeps_best_of_pair (t1 t2 : Trend)
    (h1 : passesNorm (normKey t1.keyword) = true)
    (h2 : passesNorm (normKey t2.keyword) = true)
    (hk : normKey t1.keyword = normKey t2.keyword) :
    dedupTrends [t1, t2] =
      [(normKey t1.keyword,
        if t1.popularity < t2.popularity ∨
            (t2.popularity = t1.popularity ∧
              sourcePriority t1.source < sourcePriority t2.source)
        then t2 else t1)] ∧
    sourcePriority "pexels_api" < sourcePriority "pytrends" ∧
    sourcePriority "unsplash_api" < sourcePriority "pexels_api" ∧
    sourcePriority "unsplash_topics" < sourcePriority "unsplash_api" ∧
    sourcePriority "seasonal" < sourcePriority "unsplash_topics" := by
  refine ⟨?_, by decide, by decide, by decide, by decide⟩
  have e1 : dedupTrends [t1, t2] =
      [(normKey t1.keyword, if beats t2 t1 then t2 else t1)] := by
    simp only [dedupTrends, List.foldl_cons, List.foldl_nil, dedupStep,
      if_pos h1, if_pos h2]
    simp [assocUpsert, hk]
  rw [e1]
  by_cases hb : t1.popularity < t2.popularity ∨
      (t2.popularity = t1.popularity ∧
        sourcePriority t1.source < sourcePriority t2.source)
  · have hbt : beats t2 t1 = true := by
      simp only [beats, Bool.or_eq_true, Bool.and_eq_true, decide_eq_true_eq]
      exact hb
    rw [if_pos hb, if_pos hbt]
  · have hbt : beats t2 t1 = false := by
      rw [Bool.eq_false_iff]
      intro hc
      simp only [beats, Bool.or_eq_true, Bool.and_eq_true,
        decide_eq_true_eq] at hc
      exact hb hc
    rw [if_neg hb, if_neg (by simp [hbt])]

theorem dedup_keeps_best_of_pair_witness :
    dedupTrends [⟨"Remote Work", 80, "business", "seasonal"⟩,
        ⟨" remote work ", 80, "business", "pytrends"⟩] =
      [(normKey "Remote Work",
        if (80 : Int) < 80 ∨
            ((80 : Int) = 80 ∧ sourcePriority "seasonal" < sourcePriority "pytrends")
        then ⟨" remote work ", 80, "business", "pytrends"⟩
        else ⟨"Remote Work", 80, "business", "seasonal"⟩)] ∧
    sourcePriority "pexels_api" < sourcePriority "pytrends" ∧
    sourcePriority "unsplash_api" < sourcePriority "pexels_api" ∧
    sourcePriority "unsplash_topics" < sourcePriority "unsplash_api" ∧
    sourcePriority "seasonal" < sourcePriority "unsplash_topics" :=
  dedup_keeps_best_of_pair ⟨"Remote Work", 80, "business", "seasonal"⟩
    ⟨" remote work ", 80, "business", "pytrends"⟩
    (by decide) (by decide) (by decide)

/-- C5: the dedup/rank pass keeps only records whose normalized keyword has
length in [3, 50] and no double-underscore run; every passing candidate's key
reaches the unique set; `"ai"` is dropped, `"ai3"` passes, and any keyword
containing `"foo__bar"` is dropped regardless of length. -/
theorem filter_pass_spec (ts : List Trend) :
    (∀ q ∈ dedupTrends ts, q.2 ∈ ts ∧ passesNorm (normKey q.2.keyword) = true) ∧
    (∀ t ∈ ts, passesNorm (normKey t.keyword) = true →
      normKey t.keyword ∈ (dedupTrends ts).map Prod.fst) ∧
    passesNorm (normKey "ai") = false ∧
    passesNorm (normKey "ai3") = true ∧
    (∀ kw : String, pyIn "foo__bar" kw = true → passesNorm kw = false) := by
  refine ⟨?_, ?_, by decide, by decide, ?_⟩
  · intro q hq
    exact ⟨(dedup_mem hq).1, (dedup_mem hq).2.1⟩
  · intro t ht hp
    simp only [dedupTrends]
    exact dedup_go_key_of_mem ts [] t ht hp
  · intro kw h
    have h2 : hasUU kw.data = true := hasUU_of_have _ (by decide) _ h
    simp [passesNorm, h2]

theorem filter_pass_spec_witness :
    (∀ q ∈ dedupTrends [⟨"ai3", 80, "technology", "pytrends"⟩],
      q.2 ∈ [(⟨"ai3", 80, "technology", "pytrends"⟩ : Trend)] ∧
        passesNorm (normKey q.2.keyword) = true) ∧
    (∀ t ∈ [(⟨"ai3", 80, "technology", "pytrends"⟩ : Trend)],
      passesNorm (normKey t.keyword) = true →
      normKey t.keyword ∈
        (dedupTrends [⟨"ai3", 80, "technology", "pytrends"⟩]).map Prod.fst) ∧
    passesNorm (normKey "ai") = false ∧
    passesNorm (normKey "ai3") = true ∧
    (∀ kw : String, pyIn "foo__bar" kw = true → passesNorm kw = false) :=
  filter_pass_spec [⟨"ai3", 80, "technology", "pytrends"⟩]

theorem rankLE_iff (a b : Trend) :
    rankLE a b = true ↔
      (b.popularity < a.popularity ∨
        (b.popularity = a.popularity ∧ wcount b.keyword ≤ wcount a.keyword)) := by
  simp [rankLE]

/-- C4: `trending_searches` has length ≤ 20, is sorted descending by
`(popularity, word count)` with insertion-order-stable ties (its subsequence at
any fixed rank key is a prefix of the merged list's subsequence at that key),
and of two popularity-90 records the 2-word keyword ranks above the 1-word
keyword. -/
theorem trending_ranked_spec (outcomes : List (String × Outcome)) (month : Nat)
    (roll : Nat → Int) :
    (collect outcomes month roll).trending_searches.length ≤ 20 ∧
    (collect outcomes month roll).trending_searches.Pairwise (fun a b =>
      b.popularity < a.popularity ∨
        (b.popularity = a.popularity ∧ wcount b.keyword ≤ wcount a.keyword)) ∧
    (∀ P : Int × Nat,
      ((collect outcomes month roll).trending_searches.filter
          (fun t => decide ((t.popularity, wcount t.keyword) = P))) <+:
        (((dedupTrends (allTrendsOf outcomes month roll)).map
            (fun p => p.2)).filter
          (fun t => decide ((t.popularity, wcount t.keyword) = P)))) ∧
    rankPass [⟨"finance", 90, "business", "pytrends"⟩,
        ⟨"remote work", 90, "business", "pytrends"⟩] =
      [⟨"remote work", 90, "business", "pytrends"⟩,
        ⟨"finance", 90, "business", "pytrends"⟩] := by
  refine ⟨?_, ?_, ?_, ?_⟩
  · show (rankPass (allTrendsOf outcomes month roll)).length ≤ 20
    simp only [rankPass, List.length_take]
    exact min_le_left _ _
  · show (rankPass (allTrendsOf outcomes month roll)).Pairwise _
    have hs := List.sorted_mergeSort rankLE_trans rankLE_total
      ((dedupTrends (allTrendsOf outcomes month roll)).map (fun p => p.2))
    have ht : (rankPass (allTrendsOf outcomes month roll)).Pairwise
        (fun a b => rankLE a b) :=
      hs.sublist (List.take_sublist _ _)
    exact ht.imp (fun h => (rankLE_iff _ _).mp h)
  · intro P
    show ((rankPass (allTrendsOf outcomes month roll)).filter _) <+: _
    have h1 : ((rankPass (allTrendsOf outcomes month roll)).filter
        (fun t => decide ((t.popularity, wcount t.keyword) = P))) <+:
        ((((dedupTrends (allTrendsOf outcomes month roll)).map
            (fun p => p.2)).mergeSort rankLE).filter
          (fun t => decide ((t.popularity, wcount t.keyword) = P))) :=
      (List.take_prefix _ _).filter _
    rwa [mergeSort_filter_rank] at h1
  · have hvals : (dedupTrends [⟨"finance", 90, "business", "pytrends"⟩,
        ⟨"remote work", 90, "business", "pytrends"⟩]).map (fun p => p.2) =
        [⟨"finance", 90, "business", "pytrends"⟩,
          ⟨"remote work", 90, "business", "pytrends"⟩] := by decide
    have hperm : List.Perm
        ([(⟨"finance", 90, "business", "pytrends"⟩ : Trend),
          ⟨"remote work", 90, "business", "pytrends"⟩].mergeSort rankLE)
        [⟨"remote work", 90, "business", "pytrends"⟩,
          ⟨"finance", 90, "business", "pytrends"⟩] :=
      (List.mergeSort_perm _ _).trans
        (List.Perm.swap _ _ _).symm
    have hs1 : ([(⟨"finance", 90, "business", "pytrends"⟩ : Trend),
          ⟨"remote work", 90, "business", "pytrends"⟩].mergeSort rankLE).Pairwise
        (fun a b => rankLE a b) :=
      List.sorted_mergeSort rankLE_trans rankLE_total _
    have hs2 : ([(⟨"remote work", 90, "business", "pytrends"⟩ : Trend),
          ⟨"finance", 90, "business", "pytrends"⟩]).Pairwise
        (fun a b => rankLE a b) := by decide
    have heq : ([(⟨"finance", 90, "business", "pytrends"⟩ : Trend),
          ⟨"remote work", 90, "business", "pytrends"⟩].mergeSort rankLE) =
        [⟨"remote work", 90, "business", "pytrends"⟩,
          ⟨"finance", 90, "business", "pytrends"⟩] := by
      apply List.Perm.eq_of_sorted _ hs1 hs2 hperm
      intro a b ha hb hab hba
      have ha' : a ∈ [(⟨"finance", 90, "business", "pytrends"⟩ : Trend),
          ⟨"remote work", 90, "business", "pytrends"⟩] :=
        List.mem_mergeSort.mp ha
      simp only [List.mem_cons, List.not_mem_nil, or_false] at ha' hb
      rcases ha' with rfl | rfl <;> rcases hb with rfl | rfl <;>
        first
          | rfl
          | exact absurd hab (by decide)
          | exact absurd hba (by decide)
    show (((dedupTrends _).map (fun p => p.2)).mergeSort rankLE).take 20 = _
    rw [hvals, heq]
    rfl

/-- C10: `seasonal_trends` is exactly the subsequence of `trending_searches`
whose source is `"seasonal"`; it can be empty even though the seasonal
fallback always contributes its 6 records, because only seasonal records that
rank into the top 20 appear in it. -/
theorem seasonal_trends_spec :
    (∀ (outcomes : List (String × Outcome)) (month : Nat) (roll : Nat → Int),
      List.Sublist (collect outcomes month roll).seasonal_trends
        (collect outcomes month roll).trending_searches ∧
      (∀ t ∈ (collect outcomes month roll).seasonal_trends,
        t.source = "seasonal") ∧
      (∀ t ∈ (collect outcomes month roll).trending_searches,
        t.source = "seasonal" → t ∈ (collect outcomes month roll).seasonal_trends)) ∧
    (collect exOutcomes 1 (fun _ => 70)).seasonal_trends = [] ∧
    (sourceSeasonal 1 (fun _ => 70)).length = 6 ∧
    (collect exOutcomes 1 (fun _ => 70)).trending_searches.length = 20 := by
  refine ⟨?_, ?_⟩
  · intro outcomes month roll
    refine ⟨List.filter_sublist _, ?_, ?_⟩
    · intro t ht
      have h := (List.mem_filter.mp ht).2
      simpa using h
    · intro t ht hs
      show t ∈ (rankPass (allTrendsOf outcomes month roll)).filter
        (fun t => t.source = "seasonal")
      exact List.mem_filter.mpr ⟨ht, by simp [hs]⟩
  · have hvals : (dedupTrends (allTrendsOf exOutcomes 1 (fun _ => 70))).map
        (fun p => p.2) = allTrendsOf exOutcomes 1 (fun _ => 70) := by decide
    have hsorted : (allTrendsOf exOutcomes 1 (fun _ => 70)).Pairwise
        (fun a b => rankLE a b) := by decide
    have hms : ((dedupTrends (allTrendsOf exOutcomes 1 (fun _ => 70))).map
          (fun p => p.2)).mergeSort rankLE =
        allTrendsOf exOutcomes 1 (fun _ => 70) := by
      rw [hvals]
      exact List.mergeSort_of_sorted hsorted
    refine ⟨?_, rfl, ?_⟩
    · show ((rankPass (allTrendsOf exOutcomes 1 (fun _ => 70))).filter
        (fun t => t.source = "seasonal")) = []
      simp only [rankPass, hms]
      decide
    · show (rankPass (allTrendsOf exOutcomes 1 (fun _ => 70))).length = 20
      simp only [rankPass, hms]
      decide

theorem mem_dedupFirst {a : String} : ∀ {l : List String},
    a ∈ dedupFirst l ↔ a ∈ l := by
  intro l
  induction l with
  | nil => simp [dedupFirst]
  | cons x xs ih =>
    simp only [dedupFirst, List.mem_cons, List.mem_filter]
    constructor
    · rintro (rfl | ⟨h, _⟩)
      · exact Or.inl rfl
      · exact Or.inr (ih.mp h)
    · rintro (rfl | h)
      · exact Or.inl rfl
      · by_cases hax : a = x
        · exact Or.inl hax
        · exact Or.inr ⟨ih.mpr h, by simp [hax]⟩

theorem nodup_dedupFirst : ∀ (l : List String), (dedupFirst l).Nodup := by
  intro l
  induction l with
  | nil => simp [dedupFirst]
  | cons x xs ih =>
    simp only [dedupFirst, List.nodup_cons]
    constructor
    · intro hmem
      have := (List.mem_filter.mp hmem).2
      simp at this
    · exact ih.filter _

theorem dedupFirst_append_singleton (x : String) : ∀ (l : List String),
    dedupFirst (l ++ [x]) =
      if x ∈ l then dedupFirst l else dedupFirst l ++ [x] := by
  intro l
  induction l with
  | nil => simp [dedupFirst]
  | cons y ys ih =>
    simp only [List.cons_append, dedupFirst, List.append_eq]
    rw [ih]
    by_cases hxy : x = y
    · subst hxy
      rw [if_pos (List.mem_cons_self _ _)]
      by_cases hmem : x ∈ ys
      · rw [if_pos hmem]
      · rw [if_neg hmem, List.filter_append]
        simp
    · by_cases hmem : x ∈ ys
      · rw [if_pos hmem, if_pos (List.mem_cons_of_mem _ hmem)]
      · rw [if_neg hmem, if_neg (fun h => by
          rcases List.mem_cons.mp h with h' | h'
          · exact hxy h'
          · exact hmem h')]
        rw [List.filter_append]
        simp [hxy]

theorem specAcc_append (top : List Trend) (t : Trend) (c : String) :
    specAcc (top ++ [t]) c =
      if c = t.category then catUpdate t (specAcc top c) else specAcc top c := by
  by_cases hc : c = t.category
  · subst hc
    simp [specAcc, catUpdate, List.filter_append]
  · have : ¬ (t.category = c) := fun h => hc h.symm
    simp [specAcc, List.filter_append, this, hc]

theorem assocUpsert_map_present {β : Type} (k : String) (f : Option β → β)
    (g : String → β) : ∀ (l : List String), l.Nodup → k ∈ l →
    assocUpsert k f (l.map (fun c => (c, g c))) =
      l.map (fun c => (c, if c = k then f (some (g c)) else g c)) := by
  intro l
  induction l with
  | nil => simp
  | cons c rest ih =>
    intro hnd hk
    simp only [List.map_cons, assocUpsert]
    by_cases hck : c = k
    · rw [if_pos hck, if_pos hck]
      subst hck
      congr 1
      apply (List.map_congr_left _).symm
      intro c' hc'
      have : ¬ (c' = c) := by
        intro h
        subst h
        exact (List.nodup_cons.mp hnd).1 hc'
      simp [this]
    · rw [if_neg hck, if_neg hck]
      have hk' : k ∈ rest := by
        rcases List.mem_cons.mp hk with h | h
        · exact absurd h.symm hck
        · exact h
      rw [ih (List.nodup_cons.mp hnd).2 hk']

theorem assocUpsert_map_absent {β : Type} (k : String) (f : Option β → β)
    (g : String → β) : ∀ (l : List String), k ∉ l →
    assocUpsert k f (l.map (fun c => (c, g c))) =
      l.map (fun c => (c, g c)) ++ [(k, f none)] := by
  intro l
  induction l with
  | nil => intro _; simp [assocUpsert]
  | cons c rest ih =>
    intro hk
    simp only [List.map_cons, assocUpsert]
    have hck : ¬ (c = k) := fun h => hk (h ▸ List.mem_cons_self _ _)
    rw [if_neg hck, ih (fun h => hk (List.mem_cons_of_mem _ h))]
    simp

/-- The grouping fold builds exactly one entry per distinct category, in
first-occurrence order, holding that category's records. -/
theorem catGroups_eq (top : List Trend) :
    catGroups top = (dedupFirst (top.map (fun t => t.category))).map
      (fun c => (c, specAcc top c)) := by
  induction top using List.reverseRecOn with
  | nil => rfl
  | append_singleton top t ih =>
    have hstep : catGroups (top ++ [t]) =
        assocUpsert t.category
          (fun o => catUpdate t (o.getD (catInit t.category))) (catGroups top) := by
      simp [catGroups, List.foldl_append]
    rw [hstep, ih,
      show (top ++ [t]).map (fun t => t.category) =
        top.map (fun t => t.category) ++ [t.category] by simp,
      dedupFirst_append_singleton]
    by_cases hmem : t.category ∈ top.map (fun t => t.category)
    · rw [if_pos (by simpa using hmem)]
      rw [assocUpsert_map_present _ _ _ _ (nodup_dedupFirst _)
        (mem_dedupFirst.mpr hmem)]
      apply List.map_congr_left
      intro c hc
      by_cases hck : c = t.category
      · subst hck
        simp [specAcc_append, Option.getD]
      · simp [specAcc_append, hck]
    · rw [if_neg (by simpa using hmem)]
      rw [assocUpsert_map_absent _ _ _ _
        (fun h => hmem (mem_dedupFirst.mp h)), List.map_append]
      congr 1
      · apply List.map_congr_left
        intro c hc
        have hck : ¬ (c = t.category) :=
          fun h => hmem (h ▸ mem_dedupFirst.mp hc)
        simp [specAcc_append, hck]
      · have hnil : top.filter (fun r => r.category = t.category) = [] := by
          rw [List.filter_eq_nil_iff]
          intro a ha hcat
          exact hmem (List.mem_map.mpr ⟨a, ha, by simpa using hcat⟩)
        simp [specAcc_append, specAcc, catInit, catUpdate, hnil, Option.getD]

/-- For an occurring category the finalization pass computes the spec-side
summary: `max 1 count = count` and the average is the true arithmetic mean. -/
theorem finalize_specAcc {top : List Trend} {c : String}
    (h : c ∈ top.map (fun t => t.category)) :
    finalizeCat (specAcc top c) = specSummary top c := by
  have hpos : 0 < (top.filter (fun t => t.category = c)).length := by
    obtain ⟨t, ht, hc⟩ := List.mem_map.mp h
    exact List.length_pos_of_mem
      (List.mem_filter.mpr ⟨ht, by simp [hc]⟩)
  have hmax : max 1 (top.filter (fun t => t.category = c)).length =
      (top.filter (fun t => t.category = c)).length := by omega
  simp [finalizeCat, specAcc, specSummary, hmax]

theorem popLE_trans (a b c : String × Int) (h1 : popLE a b) (h2 : popLE b c) :
    popLE a c := by
  simp only [popLE, decide_eq_true_eq] at h1 h2 ⊢
  omega

theorem popLE_total (a b : String × Int) : popLE a b || popLE b a := by
  simp only [popLE, Bool.or_eq_true, decide_eq_true_eq]
  omega

theorem avgLE_trans (a b c : CategorySummary) (h1 : avgLE a b) (h2 : avgLE b c) :
    avgLE a c := by
  simp only [avgLE, decide_eq_true_eq] at h1 h2 ⊢
  exact le_trans h2 h1

theorem avgLE_total (a b : CategorySummary) : avgLE a b || avgLE b a := by
  simp only [avgLE, Bool.or_eq_true, decide_eq_true_eq]
  exact le_total b.avg_popularity a.avg_popularity

/-- C7: `popular_categories` holds exactly one entry per distinct category of
the top-20, with the claimed count, the arithmetic-mean average popularity and
the top-5 keyword pairs sorted descending by popularity, and the entries are
sorted descending by `avg_popularity`. -/
theorem popularCategories_spec (top : List Trend) :
    (popularCategories top).Pairwise
      (fun a b => b.avg_popularity ≤ a.avg_popularity) ∧
    List.Perm (popularCategories top)
      ((dedupFirst (top.map (fun t => t.category))).map (specSummary top)) ∧
    (∀ e ∈ popularCategories top, e.top_keywords.length ≤ 5 ∧
      e.top_keywords.Pairwise (fun a b => b.2 ≤ a.2)) := by
  have hmap : (catGroups top).map (fun p => finalizeCat p.2) =
      (dedupFirst (top.map (fun t => t.category))).map (specSummary top) := by
    rw [catGroups_eq, List.map_map]
    apply List.map_congr_left
    intro c hc
    exact finalize_specAcc (mem_dedupFirst.mp hc)
  refine ⟨?_, ?_, ?_⟩
  · have hs := List.sorted_mergeSort avgLE_trans avgLE_total
      ((catGroups top).map (fun p => finalizeCat p.2))
    exact hs.imp (fun h => by simpa [avgLE] using h)
  · exact (List.mergeSort_perm _ _).trans (List.Perm.of_eq hmap)
  · intro e he
    have he' : e ∈ (catGroups top).map (fun p => finalizeCat p.2) :=
      List.mem_mergeSort.mp he
    obtain ⟨p, hp, rfl⟩ := List.mem_map.mp he'
    constructor
    · exact List.length_take_le _ _
    · have hs := List.sorted_mergeSort popLE_trans popLE_total p.2.tops
      have ht := List.Pairwise.sublist
        (List.take_sublist 5 (p.2.tops.mergeSort popLE)) hs
      exact ht.imp (fun h => by simpa [popLE] using h)

theorem Sep_symm {s1 s2 : List Trend} (h : Sep s1 s2) : Sep s2 s1 :=
  fun t2 h2 t1 h1 hk => (h t1 h1 t2 h2 hk.symm).imp Ne.symm Ne.symm

theorem optBest_assoc (o1 o2 o3 : Option Trend) :
    optBest (optBest o1 o2) o3 = optBest o1 (optBest o2 o3) := by
  cases o3 with
  | none => rfl
  | some c =>
    cases o2 with
    | none => rfl
    | some b =>
      cases o1 with
      | none => rfl
      | some a =>
        show some _ = some _
        congr 1
        simp only [optBest, bestStep]
        split_ifs with h1 h2 h3 h4 h5 h6 <;>
          first
            | rfl
            | (exfalso
               simp only [beats, Bool.or_eq_true, Bool.and_eq_true,
                 decide_eq_true_eq, Bool.not_eq_true] at *
               omega)

theorem foldl_bestStep_optBest (ts : List Trend) :
    ∀ o, ts.foldl bestStep o = optBest o (ts.foldl bestStep none) := by
  induction ts with
  | nil => intro o; rfl
  | cons t ts ih =>
    intro o
    simp only [List.foldl_cons]
    rw [ih (bestStep o t), ih (bestStep none t)]
    exact optBest_assoc o (some t) (ts.foldl bestStep none)

theorem bestStep_mem (ts : List Trend) :
    ∀ o b, ts.foldl bestStep o = some b → o = some b ∨ b ∈ ts := by
  induction ts with
  | nil => intro o b h; exact Or.inl h
  | cons t ts ih =>
    intro o b h
    simp only [List.foldl_cons] at h
    rcases ih _ _ h with h' | h'
    · cases o with
      | none =>
        simp only [bestStep, Option.some.injEq] at h'
        exact Or.inr (h' ▸ List.mem_cons_self _ _)
      | some c =>
        simp only [bestStep, Option.some.injEq] at h'
        by_cases hb : beats t c
        · rw [if_pos hb] at h'
          exact Or.inr (h' ▸ List.mem_cons_self _ _)
        · rw [if_neg hb] at h'
          exact Or.inl (by rw [h'])
    · exact Or.inr (List.mem_cons_of_mem _ h')

theorem mBest_some {k : String} {s : List Trend} {b : Trend}
    (h : mBest k s = some b) : b ∈ s ∧ normKey b.keyword = k := by
  rcases bestStep_mem _ none b h with h' | h'
  · cases h'
  · have hm := List.mem_filter.mp h'
    refine ⟨hm.1, ?_⟩
    have := hm.2
    simp only [Bool.and_eq_true, beq_iff_eq] at this
    exact this.2

theorem optBest_swap (o : Option Trend) {x y : Option Trend}
    (hxy : ∀ b1 b2, x = some b1 → y = some b2 →
      b1.popularity ≠ b2.popularity ∨
        sourcePriority b1.source ≠ sourcePriority b2.source) :
    optBest (optBest o x) y = optBest (optBest o y) x := by
  cases x with
  | none => cases y <;> rfl
  | some b1 =>
    cases y with
    | none => rfl
    | some b2 =>
      have hne := hxy b1 b2 rfl rfl
      cases o with
      | none =>
        show some _ = some _
        congr 1
        simp only [optBest, bestStep]
        split_ifs with h1 h2 <;>
          first
            | rfl
            | (exfalso
               simp only [beats, Bool.or_eq_true, Bool.and_eq_true,
                 decide_eq_true_eq, Bool.not_eq_true] at *
               omega)
      | some a =>
        show some _ = some _
        congr 1
        simp only [optBest, bestStep]
        split_ifs with h1 h2 h3 h4 h5 h6 h7 h8 <;>
          first
            | rfl
            | (exfalso
               simp only [beats, Bool.or_eq_true, Bool.and_eq_true,
                 decide_eq_true_eq, Bool.not_eq_true] at *
               omega)

theorem dedup_lookup_flatten (L : List (List Trend)) (k : String) :
    lookupKey k (dedupTrends L.flatten) = memberFold k L := by
  rw [dedup_lookup, List.filter_flatten]
  have go : ∀ (ls : List (List Trend)) (o : Option Trend),
      (ls.flatten).foldl bestStep o =
        ls.foldl (fun o s => optBest o (s.foldl bestStep none)) o := by
    intro ls
    induction ls with
    | nil => intro o; rfl
    | cons s rest ih =>
      intro o
      simp only [List.flatten_cons, List.foldl_append, List.foldl_cons]
      rw [ih (s.foldl bestStep o), foldl_bestStep_optBest s o]
  rw [go, List.foldl_map]
  rfl

theorem memberFold_perm {k : String} {L L' : List (List Trend)}
    (hperm : List.Perm L L') (hsep : L.Pairwise Sep) :
    memberFold k L = memberFold k L' := by
  have go : ∀ (M M' : List (List Trend)), List.Perm M M' → M.Pairwise Sep →
      ∀ o, M.foldl (fun o s => optBest o (mBest k s)) o =
        M'.foldl (fun o s => optBest o (mBest k s)) o := by
    intro M M' hp
    induction hp with
    | nil => intro _ o; rfl
    | cons x hp ih =>
      intro hpw o
      simp only [List.foldl_cons]
      exact ih (List.pairwise_cons.mp hpw).2 _
    | swap x y l =>
      intro hpw o
      simp only [List.foldl_cons]
      have hrel : Sep y x := (List.pairwise_cons.mp hpw).1 x (List.mem_cons_self _ _)
      congr 1
      apply optBest_swap
      intro b1 b2 hx hy
      have hb1 := mBest_some hx
      have hb2 := mBest_some hy
      exact hrel b1 hb1.1 b2 hb2.1 (hb1.2.trans hb2.2.symm)
    | trans hp1 hp2 ih1 ih2 =>
      intro hpw o
      exact (ih1 hpw o).trans (ih2 (hpw.perm hp1 (fun h => Sep_symm h)) o)
  exact go L L' hperm hsep none

/-- C9 counterexample: swapping the two adapter sublists reorders the two
rank-key-tied records in the output sequence, because the stable sort breaks
ties by dict insertion order, which follows adapter completion order. -/
theorem rankPass_not_commutative :
    rankPass ([[exA], [exB]] : List (List Trend)).flatten ≠
      rankPass ([[exB], [exA]] : List (List Trend)).flatten := by
  have h1 : rankPass [exA, exB] = [exA, exB] := by
    have hvals : (dedupTrends [exA, exB]).map (fun p => p.2) = [exA, exB] := by
      decide
    have hsorted : ([exA, exB] : List Trend).Pairwise (fun a b => rankLE a b) := by
      decide
    simp only [rankPass, hvals, List.mergeSort_of_sorted hsorted]
    rfl
  have h2 : rankPass [exB, exA] = [exB, exA] := by
    have hvals : (dedupTrends [exB, exA]).map (fun p => p.2) = [exB, exA] := by
      decide
    have hsorted : ([exB, exA] : List Trend).Pairwise (fun a b => rankLE a b) := by
      decide
    simp only [rankPass, hvals, List.mergeSort_of_sorted hsorted]
    rfl
  show rankPass [exA, exB] ≠ rankPass [exB, exA]
  rw [h1, h2]
  decide

/-- C9 amended: the dedup/rank pass is commutative over the order of the
per-adapter sublists provided (i) records in different sublists never share a
normalized keyword with equal popularity and equal source priority (so the
per-keyword survivor is order-independent), and (ii) no two distinct records
of the input tie on the rank key `(popularity, word count)` (so the stable
sort has no order-dependent ties). -/
theorem rankPass_comm_of_separated (L L' : List (List Trend))
    (hperm : List.Perm L L') (hsep : L.Pairwise Sep)
    (hinj : ∀ t1 ∈ L.flatten, ∀ t2 ∈ L.flatten,
      t1.popularity = t2.popularity → wcount t1.keyword = wcount t2.keyword →
      t1 = t2) :
    rankPass L.flatten = rankPass L'.flatten := by
  have hlook : ∀ k, lookupKey k (dedupTrends L.flatten) =
      lookupKey k (dedupTrends L'.flatten) := by
    intro k
    rw [dedup_lookup_flatten, dedup_lookup_flatten]
    exact memberFold_perm hperm hsep
  have nd1 := dedup_keys_nodup L.flatten
  have nd2 := dedup_keys_nodup L'.flatten
  have hentries : List.Perm (dedupTrends L.flatten) (dedupTrends L'.flatten) := by
    apply (List.perm_ext_iff_of_nodup (nd1.of_map _) (nd2.of_map _)).mpr
    intro q
    obtain ⟨k, v⟩ := q
    constructor
    · intro hq
      exact mem_of_lookupKey_eq_some
        ((hlook k) ▸ lookupKey_eq_some_of_mem nd1 hq)
    · intro hq
      exact mem_of_lookupKey_eq_some
        ((hlook k).symm ▸ lookupKey_eq_some_of_mem nd2 hq)
  have hvalsperm : List.Perm
      ((dedupTrends L.flatten).map (fun p => p.2))
      ((dedupTrends L'.flatten).map (fun p => p.2)) := hentries.map _
  have hs1 := List.sorted_mergeSort rankLE_trans rankLE_total
    ((dedupTrends L.flatten).map (fun p => p.2))
  have hs2 := List.sorted_mergeSort rankLE_trans rankLE_total
    ((dedupTrends L'.flatten).map (fun p => p.2))
  have hp : List.Perm
      (((dedupTrends L.flatten).map (fun p => p.2)).mergeSort rankLE)
      (((dedupTrends L'.flatten).map (fun p => p.2)).mergeSort rankLE) :=
    (List.mergeSort_perm _ _).trans
      (hvalsperm.trans (List.mergeSort_perm _ _).symm)
  have heq : ((dedupTrends L.flatten).map (fun p => p.2)).mergeSort rankLE =
      ((dedupTrends L'.flatten).map (fun p => p.2)).mergeSort rankLE := by
    apply List.Perm.eq_of_sorted _ hs1 hs2 hp
    intro a b ha hb hab hba
    have ha' : a ∈ L.flatten := by
      have hm := List.mem_mergeSort.mp ha
      obtain ⟨q, hq, hqa⟩ := List.mem_map.mp hm
      exact hqa ▸ (dedup_mem hq).1
    have hb' : b ∈ L.flatten := by
      have hm := List.mem_mergeSort.mp hb
      obtain ⟨q, hq, hqb⟩ := List.mem_map.mp hm
      have := hqb ▸ (dedup_mem hq).1
      exact (hperm.flatten.mem_iff).mpr this
    simp only [rankLE, Bool.or_eq_true, Bool.and_eq_true,
      decide_eq_true_eq] at hab hba
    have hpop : a.popularity = b.popularity := by omega
    have hwc : wcount a.keyword = wcount b.keyword := by omega
    exact hinj a ha' b hb' hpop hwc
  simp only [rankPass]
  rw [heq]

theorem rankPass_comm_of_separated_witness :
    rankPass ([[⟨"alpha one", 90, "general", "pexels_api"⟩],
        [⟨"beta two", 80, "general", "pytrends"⟩]] : List (List Trend)).flatten =
      rankPass ([[⟨"beta two", 80, "general", "pytrends"⟩],
        [⟨"alpha one", 90, "general", "pexels_api"⟩]] : List (List Trend)).flatten :=
  rankPass_comm_of_separated _ _ (by decide) (by decide) (by decide)

end Scraper
